import Mathlib

/-!
Verification of the mpi-fsm coordination protocol (sources
`src/mpi-fsm-4.c` and `src/mpi-fsm-2.c`).

Each worker runs a finite automaton over the alphabet {A, B, C} with
states {Q0, Q1, Q2, Q3}; the coordinator (root) broadcasts random
symbols and, in the `mpi-fsm-4.c` variant, counts acknowledgment
messages to detect termination.  The C enumerations, the transition
matrices, the guarded worker switch and the root acknowledgment loop
are embedded below as executable Lean definitions, and the claimed
properties are proved or refuted about them.
-/

namespace MpiFsm

/-- Alphabet of the FSM, from the C `enum`: `A = 0`, `B = 1`, `C = 2`,
`ACK = 3` (`mpi-fsm-4.c`; `mpi-fsm-2.c` has no `ACK`). -/
def A : Nat := 0

/-- Symbol `B = 1` of the alphabet. -/
def B : Nat := 1

/-- Symbol `C = 2` of the alphabet. -/
def C : Nat := 2

/-- Reserved acknowledgment value `ACK = 3` (only in `mpi-fsm-4.c`). -/
def ACK : Nat := 3

/-- `#define NUM_SYMBOLS 3`. -/
def NUM_SYMBOLS : Nat := 3

/-- Root state `R0 = 0`. -/
def R0 : Nat := 0

/-- Start state `Q0 = 0`. -/
def Q0 : Nat := 0

/-- Intermediate state `Q1 = 1`. -/
def Q1 : Nat := 1

/-- Intermediate state `Q2 = 2`. -/
def Q2 : Nat := 2

/-- Final state `Q3 = 3`. -/
def Q3 : Nat := 3

/-- The worker transition matrix `DELTA_PROC[4][NUM_SYMBOLS]`, row per
state, column per symbol, exactly as initialised in both C files. -/
def DELTA_PROC : List (List Nat) :=
  [[Q1, Q0, Q0],
   [Q1, Q2, Q1],
   [Q2, Q2, Q3],
   [Q3, Q3, Q3]]

/-- `next_state_proc(state, symbol)`: the plain table lookup
`DELTA_PROC[state][symbol]`. -/
def next_state_proc (state symbol : Nat) : Nat :=
  (DELTA_PROC.getD state []).getD symbol 0

/-- The root transition matrix `DELTA_ROOT[1][NUM_SYMBOLS]`. -/
def DELTA_ROOT : List (List Nat) := [[R0, R0, R0]]

/-- `next_state_root(state, symbol)`: lookup in `DELTA_ROOT`. -/
def next_state_root (state symbol : Nat) : Nat :=
  (DELTA_ROOT.getD state []).getD symbol 0

/-- `get_random_msg()` returns `rand() % NUM_SYMBOLS`; the draw of the
C `rand()` (a nonnegative int) is the parameter `r`. -/
def get_random_msg (r : Nat) : Nat :=
  r % NUM_SYMBOLS

/-- The guarded worker update: the body of the worker's
`switch (msg[0])` in `main` (identical guards in both C files).
Case `A` fires only from `Q0`, case `B` only from `Q1`, case `C` only
from `Q2`; any other (state, symbol) combination leaves the state
unchanged (no `case` matches, or the guard `if` fails). -/
def workerStep (my_state m : Nat) : Nat :=
  if m = A then
    (if my_state = Q0 then next_state_proc my_state m else my_state)
  else if m = B then
    (if my_state = Q1 then next_state_proc my_state m else my_state)
  else if m = C then
    (if my_state = Q2 then next_state_proc my_state m else my_state)
  else my_state

/-- The advancing (state, symbol) pairs: `(Q0, A)`, `(Q1, B)`,
`(Q2, C)` are the only combinations whose guard in the worker switch
fires. -/
def advancing (q s : Nat) : Bool :=
  (q == Q0 && s == A) || (q == Q1 && s == B) || (q == Q2 && s == C)

/-- The root's acknowledgment handling in `mpi-fsm-4.c`: after
`MPI_Iprobe` reports a pending message, the root reads the sender rank
into `source`, receives the message, and runs
`if (num_nodes-1 == ++ACK_COUNT) ++done;`.  The state is the pair
`(ACK_COUNT, done)`; the sender rank is received but never consulted —
the count is incremented unconditionally. -/
def rootAckStep (num_nodes : Nat) (st : Nat × Nat) (source : Nat) :
    Nat × Nat :=
  (st.1 + 1, if num_nodes - 1 = st.1 + 1 then st.2 + 1 else st.2)

/-- One iteration's poll result: `MPI_Iprobe` either finds no pending
acknowledgment (`none`, `flag = 0`) or finds one from some sender rank
(`some source`, `flag = 1`), in which case `rootAckStep` runs. -/
def rootIter (num_nodes : Nat) (st : Nat × Nat) (ev : Option Nat) :
    Nat × Nat :=
  match ev with
  | none => st
  | some source => rootAckStep num_nodes st source

/-- The root's `while (!done)` loop in `mpi-fsm-4.c`, driven by a
finite schedule of poll results.  Each executed iteration first
broadcasts one symbol to every worker and then polls; the function
returns the final `(ACK_COUNT, done)` state together with the number
of broadcast rounds performed. -/
def rootRun (num_nodes : Nat) : Nat × Nat → List (Option Nat) → (Nat × Nat) × Nat
  | st, [] => (st, 0)
  | st, ev :: evs =>
    if st.2 ≠ 0 then (st, 0)
    else
      let r := rootRun num_nodes (rootIter num_nodes st ev) evs
      (r.1, r.2 + 1)

/-- A single poll of the worker switch, with its send: the body of the
worker's receive loop in `mpi-fsm-4.c`.  The state is
`(my_state, done)`; the result pairs the new state with the number of
acknowledgment messages sent during this iteration (`1` only on the
accepting `(Q2, C)` branch, which also sets `done`). -/
def workerIter (st : Nat × Nat) (m : Nat) : (Nat × Nat) × Nat :=
  if m = A then
    ((if st.1 = Q0 then next_state_proc st.1 m else st.1, st.2), 0)
  else if m = B then
    ((if st.1 = Q1 then next_state_proc st.1 m else st.1, st.2), 0)
  else if m = C then
    (if st.1 = Q2 then ((next_state_proc st.1 m, st.2 + 1), 1) else (st, 0))
  else (st, 0)

/-- The worker's `while (!done)` receive loop of `mpi-fsm-4.c`, driven
by the finite stream of broadcast symbols.  Returns the final
`(my_state, done)` state together with `(receives, sends)`: the number
of messages received and the number of acknowledgments sent. -/
def workerRun : Nat × Nat → List Nat → (Nat × Nat) × (Nat × Nat)
  | st, [] => (st, (0, 0))
  | st, m :: ms =>
    if st.2 ≠ 0 then (st, (0, 0))
    else
      let p := workerIter st m
      let r := workerRun p.1 ms
      (r.1, (r.2.1 + 1, r.2.2 + p.2))

/-- The symbols drawn by the root of `mpi-fsm-2.c`: the loop
`for (i = 0; i < 50; i++) msg = get_random_msg();`, with the `rand()`
draws given as the stream `rands`. -/
def root2Symbols (rands : Nat → Nat) : List Nat :=
  (List.range 50).map (fun i => get_random_msg (rands i))

/-- One broadcast round of `mpi-fsm-2.c`: the inner loop
`for (j = 1; j < num_nodes; j++) MPI_Send(&msg, …, j, …)`, as the list
of `(destination, symbol)` sends. -/
def root2Round (num_nodes sym : Nat) : List (Nat × Nat) :=
  (List.range (num_nodes - 1)).map (fun j => (j + 1, sym))

/-- The full send trace of the `mpi-fsm-2.c` root: fifty rounds, each
broadcasting the drawn symbol to every worker, with no acknowledgment
input anywhere. -/
def root2Run (num_nodes : Nat) (rands : Nat → Nat) : List (Nat × Nat) :=
  (root2Symbols rands).flatMap (root2Round num_nodes)

/-- C7: for every state `q < 4` and symbol `s < 3`, the guarded worker
update computes exactly the same next state as the plain unguarded
lookup `next_state_proc q s`: every non-advancing entry of
`DELTA_PROC` is a self-loop, so the guard is behaviorally redundant. -/
theorem guard_redundant :
    ∀ q, q < 4 → ∀ s, s < 3 → workerStep q s = next_state_proc q s := by
  decide

/-- Witness for `guard_redundant` at `q = 1`, `s = 2`. -/
theorem guard_redundant_witness :
    workerStep 1 2 = next_state_proc 1 2 :=
  guard_redundant 1 (by decide) 2 (by decide)

/-- C3: for every state `q < 4` and symbol `s < 3` the guarded worker
update never moves to an earlier state of the chain `Q0→Q1→Q2→Q3`
(and neither does the raw table lookup), and from `Q3` every symbol
maps back to `Q3`: `Q3` is absorbing, so reaching it is
irreversible. -/
theorem state_monotone :
    ∀ q, q < 4 → ∀ s, s < 3 →
      q ≤ workerStep q s ∧ q ≤ next_state_proc q s ∧
      workerStep Q3 s = Q3 ∧ next_state_proc Q3 s = Q3 := by
  decide

/-- Witness for `state_monotone` at `q = 2`, `s = 0`. -/
theorem state_monotone_witness :
    2 ≤ workerStep 2 0 ∧ 2 ≤ next_state_proc 2 0 ∧
      workerStep Q3 0 = Q3 ∧ next_state_proc Q3 0 = Q3 :=
  state_monotone 2 (by decide) 0 (by decide)

/-- Repeated delivery of a fixed symbol that fixes the state keeps
the state fixed. -/
theorem foldl_workerStep_fixed (q s : Nat) (h : workerStep q s = q) :
    ∀ n, List.foldl workerStep q (List.replicate n s) = q := by
  intro n
  induction n with
  | zero => rfl
  | succ k ih => simpa [List.replicate_succ, h] using ih

/-- Non-advancing pairs leave the state unchanged (single step). -/
theorem workerStep_non_advancing :
    ∀ q, q < 4 → ∀ s, s < 3 → advancing q s = false → workerStep q s = q := by
  decide

/-- C4: for every state `q < 4` and symbol `s < 3` such that `(q, s)`
is not one of the advancing pairs `(Q0, A)`, `(Q1, B)`, `(Q2, C)`, the
guarded worker update leaves the state equal to `q`, and delivering
that non-advancing symbol any number of times in succession never
changes the state. -/
theorem non_advancing_noop :
    ∀ q, q < 4 → ∀ s, s < 3 → advancing q s = false →
      workerStep q s = q ∧
      ∀ n, List.foldl workerStep q (List.replicate n s) = q := by
  intro q hq s hs hadv
  have h := workerStep_non_advancing q hq s hs hadv
  exact ⟨h, foldl_workerStep_fixed q s h⟩

/-- Witness for `non_advancing_noop` at `q = 1`, `s = 0`, 5 copies. -/
theorem non_advancing_noop_witness :
    workerStep 1 0 = 1 ∧ List.foldl workerStep 1 (List.replicate 5 0) = 1 :=
  ⟨(non_advancing_noop 1 (by decide) 0 (by decide) (by decide)).1,
   (non_advancing_noop 1 (by decide) 0 (by decide) (by decide)).2 5⟩

/-- From state `Q3 = 3` every symbol (any integer message) keeps the
worker in state `3`: every guard compares against `Q0`, `Q1` or `Q2`. -/
theorem workerStep_three (m : Nat) : workerStep 3 m = 3 := by
  unfold workerStep
  split_ifs with h1 h2 h3 h4 h5 h6 <;> simp_all [Q0, Q1, Q2]

/-- State `3` is absorbing for whole message sequences. -/
theorem foldl_workerStep_three (S : List Nat) :
    List.foldl workerStep 3 S = 3 := by
  induction S with
  | nil => rfl
  | cons x S ih => rw [List.foldl_cons, workerStep_three]; exact ih

/-- The guarded step maps states below `4` to states below `4`. -/
theorem workerStep_lt_four :
    ∀ q, q < 4 → ∀ s, s < 3 → workerStep q s < 4 := by
  decide

/-- Processing any sequence of alphabet symbols keeps the state
below `4`. -/
theorem foldl_workerStep_lt_four :
    ∀ S : List Nat, (∀ x ∈ S, x < 3) → ∀ q, q < 4 →
      List.foldl workerStep q S < 4 := by
  intro S
  induction S with
  | nil => intro _ q hq; exact hq
  | cons x S ih =>
    intro hmem q hq
    rw [List.foldl_cons]
    exact ih (fun y hy => hmem y (List.mem_cons_of_mem x hy))
      (workerStep q x)
      (workerStep_lt_four q hq x (hmem x (List.mem_cons_self x S)))

/-- A cons list is a sublist of a cons list with a different head iff
it is a sublist of the tail. -/
theorem sublist_cons_of_ne {a b : Nat} {l r : List Nat} (hab : a ≠ b) :
    (a :: l).Sublist (b :: r) ↔ (a :: l).Sublist r := by
  constructor
  · intro h
    rcases List.sublist_cons_iff.mp h with h' | ⟨t, ht, _⟩
    · exact h'
    · injection ht with h1 _
      exact absurd h1 hab
  · intro h
    exact h.cons b

/-- Chain characterisation of the guarded automaton: started at state
`q < 4`, a sequence of alphabet symbols drives the worker to the final
state `3` exactly when the remaining suffix `drop q [A, B, C]` of the
required subsequence occurs (in order) in the sequence. -/
theorem foldl_workerStep_eq_three_iff :
    ∀ S : List Nat, (∀ x ∈ S, x < 3) → ∀ q, q < 4 →
      (List.foldl workerStep q S = 3 ↔ (List.drop q [A, B, C]).Sublist S) := by
  intro S
  induction S with
  | nil =>
    intro _ q hq
    interval_cases q <;> simp [A, B, C]
  | cons x S ih =>
    intro hmem q hq
    have hx : x < 3 := hmem x (List.mem_cons_self x S)
    have hS : ∀ y ∈ S, y < 3 := fun y hy => hmem y (List.mem_cons_of_mem x hy)
    rw [List.foldl_cons]
    interval_cases q
    · interval_cases x
      · rw [show workerStep 0 0 = 1 from by decide, ih hS 1 (by decide)]
        simp only [A, B, C, List.drop]
        exact List.cons_sublist_cons.symm
      · rw [show workerStep 0 1 = 0 from by decide, ih hS 0 (by decide)]
        simp only [A, B, C, List.drop]
        exact (sublist_cons_of_ne (by decide)).symm
      · rw [show workerStep 0 2 = 0 from by decide, ih hS 0 (by decide)]
        simp only [A, B, C, List.drop]
        exact (sublist_cons_of_ne (by decide)).symm
    · interval_cases x
      · rw [show workerStep 1 0 = 1 from by decide, ih hS 1 (by decide)]
        simp only [A, B, C, List.drop]
        exact (sublist_cons_of_ne (by decide)).symm
      · rw [show workerStep 1 1 = 2 from by decide, ih hS 2 (by decide)]
        simp only [A, B, C, List.drop]
        exact List.cons_sublist_cons.symm
      · rw [show workerStep 1 2 = 1 from by decide, ih hS 1 (by decide)]
        simp only [A, B, C, List.drop]
        exact (sublist_cons_of_ne (by decide)).symm
    · interval_cases x
      · rw [show workerStep 2 0 = 2 from by decide, ih hS 2 (by decide)]
        simp only [A, B, C, List.drop]
        exact (sublist_cons_of_ne (by decide)).symm
      · rw [show workerStep 2 1 = 2 from by decide, ih hS 2 (by decide)]
        simp only [A, B, C, List.drop]
        exact (sublist_cons_of_ne (by decide)).symm
      · rw [show workerStep 2 2 = 3 from by decide]
        simp only [A, B, C, List.drop]
        exact iff_of_true (foldl_workerStep_three S)
          (List.cons_sublist_cons.mpr (List.nil_sublist S))
    · rw [workerStep_three x]
      simp only [A, B, C, List.drop]
      exact iff_of_true (foldl_workerStep_three S) (List.nil_sublist (x :: S))

/-- C1: for every finite sequence of symbols from `{A, B, C}`, a worker
started at `Q0` and processing the sequence with the guarded transition
rule ends in `Q3` iff the sequence contains `A`, then a later `B`, then
a still later `C` (i.e. `[A, B, C]` is a sublist); every sequence
without that subsequence leaves the worker in `Q0`, `Q1` or `Q2`. -/
theorem accepts_iff_subsequence :
    ∀ S : List Nat, (∀ x ∈ S, x < 3) →
      (List.foldl workerStep Q0 S = Q3 ↔ List.Sublist [A, B, C] S) ∧
      (¬ List.Sublist [A, B, C] S →
        List.foldl workerStep Q0 S = Q0 ∨ List.foldl workerStep Q0 S = Q1 ∨
          List.foldl workerStep Q0 S = Q2) := by
  intro S hmem
  have h := foldl_workerStep_eq_three_iff S hmem 0 (by decide)
  rw [List.drop_zero] at h
  refine ⟨h, ?_⟩
  intro hns
  have hlt := foldl_workerStep_lt_four S hmem 0 (by decide)
  have hne : List.foldl workerStep 0 S ≠ 3 := fun he => hns (h.mp he)
  unfold Q0 Q1 Q2 at *
  omega

/-- Witness for `accepts_iff_subsequence` on the spec's concrete
scenario `[C, B, A, B, C]`. -/
theorem accepts_iff_subsequence_witness :
    (List.foldl workerStep Q0 [2, 1, 0, 1, 2] = Q3 ↔
      List.Sublist [A, B, C] [2, 1, 0, 1, 2]) ∧
    (¬ List.Sublist [A, B, C] [2, 1, 0, 1, 2] →
      List.foldl workerStep Q0 [2, 1, 0, 1, 2] = Q0 ∨
        List.foldl workerStep Q0 [2, 1, 0, 1, 2] = Q1 ∨
          List.foldl workerStep Q0 [2, 1, 0, 1, 2] = Q2) :=
  accepts_iff_subsequence [2, 1, 0, 1, 2] (by decide)

/-- C9: `get_random_msg` always returns a symbol in `{A, B, C}`, never
the reserved `ACK` value `3`. -/
theorem get_random_msg_range :
    ∀ r, (get_random_msg r = A ∨ get_random_msg r = B ∨ get_random_msg r = C) ∧
      get_random_msg r ≠ ACK := by
  intro r
  have h : r % 3 < 3 := Nat.mod_lt r (by decide)
  unfold get_random_msg NUM_SYMBOLS A B C ACK
  omega

/-- Once `done` is nonzero the loop guard fails immediately: no
further broadcast happens and the state is unchanged. -/
theorem rootRun_stop (num_nodes : Nat) (st : Nat × Nat)
    (evs : List (Option Nat)) (h : st.2 ≠ 0) :
    rootRun num_nodes st evs = (st, 0) := by
  cases evs with
  | nil => rfl
  | cons ev evs => simp [rootRun, h]

/-- A single iteration never decreases `ACK_COUNT`. -/
theorem rootIter_count_le (num_nodes : Nat) (st : Nat × Nat)
    (ev : Option Nat) : st.1 ≤ (rootIter num_nodes st ev).1 := by
  cases ev with
  | none => exact Nat.le_refl _
  | some s => exact Nat.le_succ _

/-- A single iteration consumes at most one acknowledgment: the count
grows by at most one. -/
theorem rootIter_count_le_succ (num_nodes : Nat) (st : Nat × Nat)
    (ev : Option Nat) : (rootIter num_nodes st ev).1 ≤ st.1 + 1 := by
  cases ev with
  | none => exact Nat.le_succ _
  | some s => exact Nat.le_refl _

/-- If an iteration sets `done` from a state where it was zero, the
new count equals `num_nodes - 1` at that very moment. -/
theorem rootIter_sets_done (num_nodes : Nat) (st : Nat × Nat)
    (ev : Option Nat) (h0 : st.2 = 0)
    (h1 : (rootIter num_nodes st ev).2 ≠ 0) :
    (rootIter num_nodes st ev).1 = num_nodes - 1 := by
  cases ev with
  | none => exact absurd h0 h1
  | some s =>
    unfold rootIter rootAckStep at *
    by_cases hc : num_nodes - 1 = st.1 + 1
    · simp [hc]
    · simp [hc] at h1
      exact absurd h0 h1

/-- The run never decreases `ACK_COUNT`. -/
theorem rootRun_count_mono (num_nodes : Nat) :
    ∀ (evs : List (Option Nat)) (st : Nat × Nat),
      st.1 ≤ ((rootRun num_nodes st evs).1).1 := by
  intro evs
  induction evs with
  | nil => intro st; exact Nat.le_refl _
  | cons ev evs ih =>
    intro st
    by_cases h : st.2 ≠ 0
    · rw [rootRun_stop num_nodes st (ev :: evs) h]
    · simp only [rootRun, h, if_false]
      exact Nat.le_trans (rootIter_count_le num_nodes st ev)
        (ih (rootIter num_nodes st ev))

/-- The final count is bounded by the starting count plus the number
of broadcast rounds: at most one acknowledgment per round. -/
theorem rootRun_count_le_rounds (num_nodes : Nat) :
    ∀ (evs : List (Option Nat)) (st : Nat × Nat),
      ((rootRun num_nodes st evs).1).1 ≤ st.1 + (rootRun num_nodes st evs).2 := by
  intro evs
  induction evs with
  | nil => intro st; exact Nat.le_refl _
  | cons ev evs ih =>
    intro st
    by_cases h : st.2 ≠ 0
    · rw [rootRun_stop num_nodes st (ev :: evs) h]
      exact Nat.le_add_right _ _
    · simp only [rootRun, h, if_false]
      have h1 := ih (rootIter num_nodes st ev)
      have h2 := rootIter_count_le_succ num_nodes st ev
      omega

/-- Started with `done = 0`, the run reports `done ≠ 0` only if the
final count equals `num_nodes - 1`. -/
theorem rootRun_done_count (num_nodes : Nat) :
    ∀ (evs : List (Option Nat)) (st : Nat × Nat), st.2 = 0 →
      ((rootRun num_nodes st evs).1).2 ≠ 0 →
      ((rootRun num_nodes st evs).1).1 = num_nodes - 1 := by
  intro evs
  induction evs with
  | nil => intro st h0 h1; exact absurd h0 h1
  | cons ev evs ih =>
    intro st h0 h1
    have hg : ¬ st.2 ≠ 0 := fun h => h h0
    simp only [rootRun, hg, if_false] at h1 ⊢
    by_cases hmid : (rootIter num_nodes st ev).2 = 0
    · exact ih (rootIter num_nodes st ev) hmid h1
    · rw [rootRun_stop num_nodes (rootIter num_nodes st ev) evs hmid]
      exact rootIter_sets_done num_nodes st ev h0 hmid

/-- C6: the coordinator of `mpi-fsm-4.c` never sets its `done` flag
before `ACK_COUNT` equals `num_nodes - 1` (the number of workers);
`ACK_COUNT` never decreases during the run; and once the loop guard
sees `done ≠ 0` no further symbol is broadcast. -/
theorem coordinator_completion :
    ∀ (num_nodes : Nat) (evs : List (Option Nat)),
      (((rootRun num_nodes (0, 0) evs).1).2 ≠ 0 →
        ((rootRun num_nodes (0, 0) evs).1).1 = num_nodes - 1) ∧
      (∀ st : Nat × Nat, st.1 ≤ ((rootRun num_nodes st evs).1).1) ∧
      (∀ st : Nat × Nat, st.2 ≠ 0 → rootRun num_nodes st evs = (st, 0)) :=
  fun num_nodes evs =>
    ⟨rootRun_done_count num_nodes evs (0, 0) rfl,
     rootRun_count_mono num_nodes evs,
     fun st h => rootRun_stop num_nodes st evs h⟩

/-- Witness for `coordinator_completion`: three nodes (two workers),
both acknowledgments arriving in the first two rounds. -/
theorem coordinator_completion_witness :
    ((rootRun 3 (0, 0) [some 1, some 2]).1).2 ≠ 0 ∧
    ((rootRun 3 (0, 0) [some 1, some 2]).1).1 = 3 - 1 ∧
    rootRun 3 (2, 1) [some 1, some 2] = ((2, 1), 0) :=
  ⟨by decide,
   (coordinator_completion 3 [some 1, some 2]).1 (by decide),
   (coordinator_completion 3 [some 1, some 2]).2.2 (2, 1) (by decide)⟩

/-- C10: each executed iteration of the acknowledgment-counting
coordinator broadcasts exactly one symbol round and consumes at most
one pending acknowledgment, so `ACK_COUNT` grows by at most one per
broadcast round; consequently, if the run terminates (`done ≠ 0`) with
`num_nodes - 1` workers, at least `num_nodes - 1` broadcast rounds
were performed. -/
theorem broadcast_lower_bound :
    ∀ (num_nodes : Nat) (evs : List (Option Nat)),
      (∀ (st : Nat × Nat) (ev : Option Nat),
        (rootIter num_nodes st ev).1 ≤ st.1 + 1) ∧
      (∀ st : Nat × Nat,
        ((rootRun num_nodes st evs).1).1 ≤ st.1 + (rootRun num_nodes st evs).2) ∧
      (((rootRun num_nodes (0, 0) evs).1).2 ≠ 0 →
        num_nodes - 1 ≤ (rootRun num_nodes (0, 0) evs).2) := by
  intro num_nodes evs
  refine ⟨rootIter_count_le_succ num_nodes, rootRun_count_le_rounds num_nodes evs, ?_⟩
  intro hdone
  have h1 := rootRun_done_count num_nodes evs (0, 0) rfl hdone
  have h2 := rootRun_count_le_rounds num_nodes evs (0, 0)
  omega

/-- Witness for `broadcast_lower_bound` at three nodes with both
acknowledgments arriving immediately: two rounds suffice and `2 ≤ 2`. -/
theorem broadcast_lower_bound_witness :
    (rootIter 3 (0, 0) (some 1)).1 ≤ 0 + 1 ∧
    ((rootRun 3 (0, 0) [some 1, some 2]).1).1 ≤
      0 + (rootRun 3 (0, 0) [some 1, some 2]).2 ∧
    3 - 1 ≤ (rootRun 3 (0, 0) [some 1, some 2]).2 :=
  ⟨(broadcast_lower_bound 3 [some 1, some 2]).1 (0, 0) (some 1),
   (broadcast_lower_bound 3 [some 1, some 2]).2.1 (0, 0),
   (broadcast_lower_bound 3 [some 1, some 2]).2.2 (by decide)⟩

/-- C2 counterexample: with `num_nodes = 3` (workers `1` and `2`),
after worker `1`'s acknowledgment is recorded (`ACK_COUNT = 1`), a
duplicate acknowledgment from the same worker `1` is not a no-op: the
root increments `ACK_COUNT` to `2` and even sets `done`, although
worker `2` never acknowledged — the sender rank is never consulted. -/
theorem duplicate_ack_changes_count :
    rootAckStep 3 (rootAckStep 3 (0, 0) 1) 1 ≠ rootAckStep 3 (0, 0) 1 ∧
    rootAckStep 3 (rootAckStep 3 (0, 0) 1) 1 = (2, 1) := by
  decide

/-- C2 (amended): the root's acknowledgment handling is a bare
counter that ignores the sender rank: processing a list of
acknowledgments (each tagged with its sender, which is discarded)
increments `ACK_COUNT` by exactly one per message — duplicates
included — and increments `done` exactly when the count passes
`num_nodes - 1`. -/
theorem ack_counter_characterisation :
    ∀ (num_nodes : Nat) (sources : List Nat) (c d : Nat),
      List.foldl (rootAckStep num_nodes) (c, d) sources =
        (c + sources.length,
         d + if c < num_nodes - 1 ∧ num_nodes - 1 ≤ c + sources.length
             then 1 else 0) := by
  intro n sources
  induction sources with
  | nil =>
    intro c d
    have hco : ¬ (c < n - 1 ∧ n - 1 ≤ c + ([] : List Nat).length) := by
      simp only [List.length_nil, Nat.add_zero]
      omega
    simp [if_neg hco]
    omega
  | cons s ss ih =>
    intro c d
    rw [List.foldl_cons]
    have hstep : rootAckStep n (c, d) s =
        (c + 1, if n - 1 = c + 1 then d + 1 else d) := rfl
    rw [hstep, ih]
    simp only [Prod.mk.injEq, List.length_cons]
    constructor
    · omega
    · split_ifs <;> omega

/-- Once the worker's `done` flag is set, the loop guard fails: the
worker performs no further receives and no further sends. -/
theorem workerRun_stop (st : Nat × Nat) (ms : List Nat) (h : st.2 ≠ 0) :
    workerRun st ms = (st, (0, 0)) := by
  cases ms with
  | nil => rfl
  | cons m ms => simp [workerRun, h]

/-- On a live worker (`done = 0`), only the accepting pair `(Q2, C)`
sends an acknowledgment. -/
theorem workerIter_send_iff :
    ∀ q, q < 4 → ∀ m, m < 3 →
      ((workerIter (q, 0) m).2 ≠ 0 ↔ q = 2 ∧ m = 2) := by
  decide

/-- On a live worker, the accepting pair moves to `((3, 1), 1)`:
state `Q3`, `done` set, one acknowledgment sent. -/
theorem workerIter_acc : workerIter (2, 0) 2 = ((3, 1), 1) := by
  decide

/-- On a live worker, every non-accepting pair performs the guarded
state update, keeps `done = 0` and sends nothing. -/
theorem workerIter_non_acc :
    ∀ q, q < 4 → ∀ m, m < 3 → ¬ (q = 2 ∧ m = 2) →
      workerIter (q, 0) m = ((workerStep q m, 0), 0) := by
  decide

/-- A non-accepting guarded step from a pre-final state stays
pre-final. -/
theorem workerStep_lt_three_of_non_acc :
    ∀ q, q < 3 → ∀ m, m < 3 → ¬ (q = 2 ∧ m = 2) → workerStep q m < 3 := by
  decide

/-- Run characterisation for a live worker below the final state: the
run ends in state `3` exactly when it ends with `done` set, and the
total number of acknowledgments sent is `1` if the final state is `3`
and `0` otherwise. -/
theorem workerRun_char :
    ∀ ms : List Nat, (∀ x ∈ ms, x < 3) → ∀ q, q < 3 →
      ((((workerRun (q, 0) ms).1).1 = 3 ↔ ((workerRun (q, 0) ms).1).2 ≠ 0)) ∧
      (((workerRun (q, 0) ms).2).2 =
        if ((workerRun (q, 0) ms).1).1 = 3 then 1 else 0) := by
  intro ms
  induction ms with
  | nil =>
    intro _ q hq
    have hq3 : q ≠ 3 := by omega
    simp [workerRun, hq3]
  | cons m ms ih =>
    intro hmem q hq
    have hm : m < 3 := hmem m (List.mem_cons_self m ms)
    have hms : ∀ y ∈ ms, y < 3 := fun y hy => hmem y (List.mem_cons_of_mem m hy)
    have hrw : workerRun (q, 0) (m :: ms) =
        ((workerRun (workerIter (q, 0) m).1 ms).1,
         ((workerRun (workerIter (q, 0) m).1 ms).2.1 + 1,
          (workerRun (workerIter (q, 0) m).1 ms).2.2 + (workerIter (q, 0) m).2)) := by
      simp [workerRun]
    by_cases hacc : q = 2 ∧ m = 2
    · obtain ⟨hq2, hm2⟩ := hacc
      subst hq2
      subst hm2
      rw [hrw, workerIter_acc,
        workerRun_stop ((3 : Nat), (1 : Nat)) ms (by decide)]
      simp
    · have e := workerIter_non_acc q (by omega) m hm hacc
      rw [hrw, e]
      have hq' := workerStep_lt_three_of_non_acc q hq m hm hacc
      have hIH := ih hms (workerStep q m) hq'
      simpa using hIH

/-- C5: started at `(Q0, 0)` on a stream of alphabet symbols, the
worker of `mpi-fsm-4.c` sends exactly one acknowledgment iff its run
reaches the accepting state `Q3`, which happens exactly when the
`done` flag is set and the loop exits; once `done` is set the worker
performs no further receives or sends; and on a live worker the
accepting pair `(Q2, C)` is the only transition that sends. -/
theorem single_ack_on_accept :
    ∀ ms : List Nat, (∀ x ∈ ms, x < 3) →
      ((((workerRun (Q0, 0) ms).1).1 = Q3 ↔
        ((workerRun (Q0, 0) ms).1).2 ≠ 0)) ∧
      (((workerRun (Q0, 0) ms).2).2 =
        if ((workerRun (Q0, 0) ms).1).1 = Q3 then 1 else 0) ∧
      (∀ st : Nat × Nat, st.2 ≠ 0 → workerRun st ms = (st, (0, 0))) ∧
      (∀ q, q < 4 → ∀ m, m < 3 →
        ((workerIter (q, 0) m).2 ≠ 0 ↔ q = Q2 ∧ m = C)) :=
  fun ms hmem =>
    ⟨(workerRun_char ms hmem 0 (by decide)).1,
     (workerRun_char ms hmem 0 (by decide)).2,
     fun st h => workerRun_stop st ms h,
     workerIter_send_iff⟩

/-- Witness for `single_ack_on_accept` on the spec's concrete
scenario `[C, B, A, B, C]`. -/
theorem single_ack_on_accept_witness :
    ((((workerRun (Q0, 0) [2, 1, 0, 1, 2]).1).1 = Q3 ↔
      ((workerRun (Q0, 0) [2, 1, 0, 1, 2]).1).2 ≠ 0)) ∧
    (((workerRun (Q0, 0) [2, 1, 0, 1, 2]).2).2 =
      if ((workerRun (Q0, 0) [2, 1, 0, 1, 2]).1).1 = Q3 then 1 else 0) ∧
    workerRun ((3 : Nat), (1 : Nat)) [2, 1, 0, 1, 2] =
      (((3 : Nat), (1 : Nat)), (0, 0)) ∧
    ((workerIter (2, 0) 2).2 ≠ 0 ↔ (2 : Nat) = Q2 ∧ (2 : Nat) = C) :=
  ⟨(single_ack_on_accept [2, 1, 0, 1, 2] (by decide)).1,
   (single_ack_on_accept [2, 1, 0, 1, 2] (by decide)).2.1,
   (single_ack_on_accept [2, 1, 0, 1, 2] (by decide)).2.2.1 (3, 1) (by decide),
   (single_ack_on_accept [2, 1, 0, 1, 2] (by decide)).2.2.2 2 (by decide) 2
     (by decide)⟩

/-- Each worker rank receives exactly one send per round. -/
theorem root2Round_countP (num_nodes j sym : Nat) (h1 : 1 ≤ j)
    (h2 : j < num_nodes) :
    (root2Round num_nodes sym).countP (fun p => p.1 == j) = 1 := by
  unfold root2Round
  rw [List.countP_map]
  have hcongr : List.countP ((fun p : Nat × Nat => p.1 == j) ∘
      fun i => (i + 1, sym)) (List.range (num_nodes - 1)) =
      List.countP (fun i => i == j - 1) (List.range (num_nodes - 1)) := by
    apply List.countP_congr
    intro x _
    simp only [Function.comp_apply, beq_iff_eq]
    omega
  rw [hcongr, ← List.count_eq_countP]
  exact List.count_eq_one_of_mem (List.nodup_range _)
    (List.mem_range.mpr (by omega))

/-- C8: the root of the fixed-iteration variant `mpi-fsm-2.c` draws
exactly `50` symbols and sends exactly `50` messages to every worker
rank — a constant number of broadcast rounds that takes no worker
progress and no acknowledgment as input (the model has no such
parameter). -/
theorem fixed_fifty_broadcast :
    ∀ (num_nodes : Nat) (rands : Nat → Nat),
      (root2Symbols rands).length = 50 ∧
      (root2Run num_nodes rands).length = 50 * (num_nodes - 1) ∧
      (∀ j, 1 ≤ j → j < num_nodes →
        (root2Run num_nodes rands).countP (fun p => p.1 == j) = 50) := by
  intro n rands
  refine ⟨by simp [root2Symbols], ?_, ?_⟩
  · unfold root2Run
    rw [List.length_flatMap]
    have hmap : List.map (List.length ∘ root2Round n) (root2Symbols rands) =
        List.replicate (root2Symbols rands).length (n - 1) := by
      rw [← List.map_const]
      apply List.map_congr_left
      intro x _
      simp [root2Round]
    rw [hmap, List.sum_replicate]
    simp [root2Symbols, Nat.mul_comm]
  · intro j hj1 hj2
    unfold root2Run
    rw [List.countP_flatMap]
    have hmap : List.map (List.countP (fun p : Nat × Nat => p.1 == j) ∘
        root2Round n) (root2Symbols rands) =
        List.replicate (root2Symbols rands).length 1 := by
      rw [← List.map_const]
      apply List.map_congr_left
      intro x _
      simp only [Function.comp_apply, Function.const_apply]
      exact root2Round_countP n j x hj1 hj2
    rw [hmap, List.sum_replicate]
    simp [root2Symbols]

/-- Witness for `fixed_fifty_broadcast` at `num_nodes = 3` with the
constant zero random stream, checked at worker rank `2`. -/
theorem fixed_fifty_broadcast_witness :
    (root2Symbols (fun _ => 0)).length = 50 ∧
    (root2Run 3 (fun _ => 0)).length = 50 * (3 - 1) ∧
    (root2Run 3 (fun _ => 0)).countP (fun p => p.1 == 2) = 50 :=
  ⟨(fixed_fifty_broadcast 3 (fun _ => 0)).1,
   (fixed_fifty_broadcast 3 (fun _ => 0)).2.1,
   (fixed_fifty_broadcast 3 (fun _ => 0)).2.2 2 (by decide) (by decide)⟩

end MpiFsm
